import Mathlib

/- Verification of poc_binance_V4.py: interval-token parsing
(`parse_interval_to_ms`), the paginated kline fetch loop
(`get_binance_klines`) and the volume-weighted histogram point of control
(`calculate_poc`).  Prices and volumes are modelled as rationals (exact
real arithmetic in place of float64), timestamps as integers. -/

/-- Errors raised by the modelled code.  `valueError` models Python
`ValueError` (the invalid-interval error of lines 22 and 30); `indexError`
models Python `IndexError` (raised by `interval[-1]` on an empty string). -/
inductive PyError where
  | indexError
  | valueError
deriving DecidableEq

/-- ASCII whitespace accepted by Python `int(...)` around the digits. -/
def isPyWs (c : Char) : Bool :=
  c = ' ' || c = '\t' || c = '\n' || c = '\r' || c = '\x0b' || c = '\x0c'

/-- Tail of a Python integer literal after its first digit: digits, with
single grouping underscores allowed only between digits. -/
def digitsTail : List Char → Bool
  | [] => true
  | '_' :: rest =>
    match rest with
    | [] => false
    | c :: _ => c.isDigit && digitsTail rest
  | c :: rest => c.isDigit && digitsTail rest

/-- A valid Python integer digit sequence: non-empty, starts with a digit,
underscores only between digits. -/
def validDigits : List Char → Bool
  | [] => false
  | c :: rest => c.isDigit && digitsTail rest

/-- Numeric value of a digit sequence, ignoring grouping underscores. -/
def digitsVal (l : List Char) : ℤ :=
  (l.filter fun c => c ≠ '_').foldl (fun acc c => 10 * acc + ((c.toNat : ℤ) - 48)) 0

/-- Model of Python `int(s)` on an ASCII string: optional surrounding
whitespace, optional single sign, then digits with underscore grouping.
`none` models the `ValueError` that `int` raises otherwise. -/
def pyInt (l : List Char) : Option ℤ :=
  match ((l.dropWhile isPyWs).reverse.dropWhile isPyWs).reverse with
  | '+' :: rest => if validDigits rest then some (digitsVal rest) else none
  | '-' :: rest => if validDigits rest then some (-(digitsVal rest)) else none
  | s => if validDigits s then some (digitsVal s) else none

/-- `parse_interval_to_ms` (poc_binance_V4.py lines 16-30): `interval[-1]`
raises `IndexError` on an empty string; `int(interval[:-1])` raises
`ValueError` on a bad numeric prefix (line 22); units `m`/`h`/`d` scale the
value to milliseconds (lines 24-29); any other unit raises `ValueError`
(line 30). -/
def parse_interval_to_ms (interval : String) : Except PyError ℤ :=
  match interval.data.getLast? with
  | none => .error .indexError
  | some unit =>
    match pyInt interval.data.dropLast with
    | none => .error .valueError
    | some value =>
      if unit = 'm' then .ok (value * 60 * 1000)
      else if unit = 'h' then .ok (value * 60 * 60 * 1000)
      else if unit = 'd' then .ok (value * 24 * 60 * 60 * 1000)
      else .error .valueError

/-- One kline record.  Of the raw Binance row the script uses index 0
(open time), index 4 (close price) and index 5 (volume); the
`np.array(..., dtype=np.float64)` conversion makes prices and volumes
reals, modelled as rationals. -/
structure Kline where
  openTime : ℤ
  closePrice : ℚ
  volume : ℚ
deriving DecidableEq

/-- How the fetch loop of `get_binance_klines` ended. -/
inductive FetchExit where
  | emptyPage
  | rangeDone
deriving DecidableEq

/-- The `while current_time < end_time` loop of `get_binance_klines`
(lines 54-78), with the page provider abstracting the HTTP GET of the
successful-response path (a transport failure propagates out and is not a
page).  `fuel` bounds how many iterations are unfolded; `none` means the
loop did not finish within `fuel` iterations.  Returns the accumulated
klines, the final cursor and which exit was taken. -/
def fetchLoop (provider : ℤ → List Kline) (interval_ms end_time : ℤ) :
    Nat → ℤ → List Kline → Option (List Kline × ℤ × FetchExit)
  | 0, _, _ => none
  | fuel + 1, current_time, klines =>
    if current_time < end_time then
      match provider current_time with
      | [] => some (klines, current_time, .emptyPage)
      | d :: rest =>
        fetchLoop provider interval_ms end_time fuel
          (((d :: rest).getLast (List.cons_ne_nil d rest)).openTime + interval_ms)
          (klines ++ (d :: rest))
    else some (klines, current_time, .rangeDone)

/-- The sequence of non-empty pages the fetch loop receives, in request
order (a final empty page is not listed since it contributes no records). -/
def fetchPages (provider : ℤ → List Kline) (interval_ms end_time : ℤ) :
    Nat → ℤ → Option (List (List Kline))
  | 0, _ => none
  | fuel + 1, current_time =>
    if current_time < end_time then
      match provider current_time with
      | [] => some []
      | d :: rest =>
        match fetchPages provider interval_ms end_time fuel
            (((d :: rest).getLast (List.cons_ne_nil d rest)).openTime + interval_ms) with
        | none => none
        | some ps => some ((d :: rest) :: ps)
    else some []

/-- `get_binance_klines` (lines 42-80): parse the interval, propagating its
error (lines 48-52), then run the fetch loop from `start_time`.  The page
provider receives the request parameters of lines 56-62: symbol, interval,
cursor (`startTime`), `endTime` and the page limit 1000.  `none` models a
run that does not terminate within `fuel` loop iterations. -/
def get_binance_klines (provider : String → String → ℤ → ℤ → Nat → List Kline)
    (symbol interval : String) (start_time end_time : ℤ) (fuel : Nat) :
    Option (Except PyError (List Kline)) :=
  match parse_interval_to_ms interval with
  | .error e => some (.error e)
  | .ok interval_ms =>
    match fetchLoop (fun c => provider symbol interval c end_time 1000)
        interval_ms end_time fuel start_time [] with
    | none => none
    | some (klines, _, _) => some (.ok klines)

/-- The exception classes caught by `main` (line 161) are `ValueError` and
`requests.exceptions.RequestException`.  Of the errors modelled here only
`valueError` is among them; `indexError` escapes `main`. -/
def main_handles : PyError → Bool
  | .valueError => true
  | .indexError => false

/-- Minimum of a list of rationals, first element as seed (the value of
`np.min` on the non-empty price column; 0 on `[]`, never used there). -/
def listMin : List ℚ → ℚ
  | [] => 0
  | x :: xs => xs.foldl min x

/-- Maximum of a list of rationals, first element as seed. -/
def listMax : List ℚ → ℚ
  | [] => 0
  | x :: xs => xs.foldl max x

/-- Bin edge `i` of `np.histogram` over range `[lo, hi]` with `n` bins:
`lo + i * (hi - lo) / n` (numpy's `linspace(lo, hi, n + 1)`). -/
def binEdge (lo hi : ℚ) (n i : Nat) : ℚ := lo + i * (hi - lo) / n

/-- Bin index `np.histogram` assigns to an in-range value `x`: truncate
`(x - lo) * n / (hi - lo)` (non-negative for in-range `x`, so `Int.floor`),
then move `x = hi` (which lands on index `n`) into the last bin. -/
def binIdx (lo hi : ℚ) (n : Nat) (x : ℚ) : Nat :=
  let f := ⌊(x - lo) * n / (hi - lo)⌋
  if f = (n : ℤ) then n - 1 else f.toNat

/-- The automatic range of `np.histogram`: `(min a, max a)`, expanded by
1/2 on each side when the two are equal (numpy `_get_outer_edges`). -/
def histRange (vals : List ℚ) : ℚ × ℚ :=
  let lo := listMin vals
  let hi := listMax vals
  if lo = hi then (lo - 1/2, hi + 1/2) else (lo, hi)

/-- `np.histogram(values, bins, weights)`: the weighted count of each of
the `bins` bins, and the bin-edge function. -/
def npHistogram (values weights : List ℚ) (bins : Nat) : List ℚ × (Nat → ℚ) :=
  let r := histRange values
  ((List.range bins).map fun i =>
      (((values.zip weights).filter fun vw => binIdx r.1 r.2 bins vw.1 = i).map
        Prod.snd).sum,
   fun i => binEdge r.1 r.2 bins i)

/-- `np.argmax`: index of the first occurrence of the maximum, that is of
the first entry that is `≥` every entry. -/
def np_argmax (l : List ℚ) : Nat := l.findIdx fun x => l.all fun y => y ≤ x

/-- `calculate_poc` (lines 83-98): empty input returns the 0.0 sentinel;
otherwise histogram the close prices weighted by the volumes, take the
first maximal bin, and return the midpoint of its two edges. -/
def calculate_poc (klines : List Kline) (bins : Nat := 500) : ℚ :=
  if klines.isEmpty then 0
  else
    let precios := klines.map Kline.closePrice
    let volumenes := klines.map Kline.volume
    let h := npHistogram precios volumenes bins
    let idx_poc := np_argmax h.1
    (h.2 idx_poc + h.2 (idx_poc + 1)) / 2

/-- The histogram `calculate_poc` builds: weighted counts of the close
prices by the volumes. -/
def pocHist (klines : List Kline) (bins : Nat) : List ℚ :=
  (npHistogram (klines.map Kline.closePrice) (klines.map Kline.volume) bins).1

/-- The bin edges `calculate_poc` uses. -/
def pocEdges (klines : List Kline) (bins : Nat) : Nat → ℚ :=
  (npHistogram (klines.map Kline.closePrice) (klines.map Kline.volume) bins).2

/-- Modelled from the claim wording of C4: bin membership when "a price
exactly on a bin edge falls into the lower-indexed bin" (the minimum, with
no lower bin, into bin 0; the maximum into the last bin): bin 0 is
`[e 0, e 1]` and bin `i > 0` is the interval from `e i` exclusive to
`e (i+1)` inclusive. -/
def specBinLower (lo hi : ℚ) (n i : Nat) (x : ℚ) : Bool :=
  if i = 0 then decide (binEdge lo hi n 0 ≤ x ∧ x ≤ binEdge lo hi n 1)
  else decide (binEdge lo hi n i < x ∧ x ≤ binEdge lo hi n (i + 1))

/-- Standard histogram bin membership: bin `i` is the interval from `e i`
inclusive to `e (i+1)` exclusive, the last bin closed on both sides. -/
def specBinUpper (lo hi : ℚ) (n i : Nat) (x : ℚ) : Bool :=
  if i = n - 1 then decide (binEdge lo hi n i ≤ x ∧ x ≤ binEdge lo hi n n)
  else decide (binEdge lo hi n i ≤ x ∧ x < binEdge lo hi n (i + 1))

/-- Volume accumulated in each of `n` bins for a given bin-membership
relation, phrased as the spec phrases it: for each record, its volume goes
to the bin whose price range contains its close price. -/
def specHist (klines : List Kline) (n : Nat) (mem : Nat → ℚ → Bool) : List ℚ :=
  (List.range n).map fun i =>
    ((klines.filter fun k => mem i k.closePrice).map Kline.volume).sum

/-- The POC described by the words of claim C4: equal-width bins over the
closed range `[min price, max price]`, edge values in the lower-indexed
bin, midpoint of the (first) bin with maximal accumulated volume. -/
def specPocLower (klines : List Kline) (n : Nat) : ℚ :=
  let lo := listMin (klines.map Kline.closePrice)
  let hi := listMax (klines.map Kline.closePrice)
  let i := np_argmax (specHist klines n (specBinLower lo hi n))
  (binEdge lo hi n i + binEdge lo hi n (i + 1)) / 2

/-- The POC in the words of the spec with the standard closed-left
histogram boundary convention (edge values in the bin whose low edge they
are, maximum price in the last bin). -/
def specPocUpper (klines : List Kline) (n : Nat) : ℚ :=
  let lo := listMin (klines.map Kline.closePrice)
  let hi := listMax (klines.map Kline.closePrice)
  let i := np_argmax (specHist klines n (specBinUpper lo hi n))
  (binEdge lo hi n i + binEdge lo hi n (i + 1)) / 2

/-- Witness page provider for the fetch claims: one record per cursor while
the cursor is below 2, then no more data. -/
def wProvider1 (_symbol _interval : String) (c _endTime : ℤ) (_limit : Nat) : List Kline :=
  if c < 2 then [⟨c, 1, 1⟩] else []

/-- Witness page provider for the termination claim. -/
def wProvider3 (c : ℤ) : List Kline := if c < 5 then [⟨c, 1, 1⟩] else []

/-- A contract-violating page provider: every page's only record lies one
interval step behind the requested cursor, so the fetch cursor never
advances. -/
def stallProvider (_symbol _interval : String) (c _endTime : ℤ) (_limit : Nat) : List Kline :=
  [⟨c - 60000, 1, 1⟩]

section Lemmas

/-- Every non-empty list of rationals has a maximal element. -/
theorem exists_list_max (l : List ℚ) (h : l ≠ []) : ∃ x ∈ l, ∀ y ∈ l, y ≤ x := by
  induction l with
  | nil => exact absurd rfl h
  | cons a t ih =>
    rcases eq_or_ne t [] with rfl | ht
    · refine ⟨a, List.mem_cons_self a [], ?_⟩
      intro y hy
      rcases List.mem_cons.1 hy with rfl | h0
      · exact le_rfl
      · cases h0
    · obtain ⟨x, hx, hmax⟩ := ih ht
      rcases le_total x a with hxa | hax
      · refine ⟨a, List.mem_cons_self a t, ?_⟩
        intro y hy
        rcases List.mem_cons.1 hy with rfl | h0
        · exact le_rfl
        · exact (hmax y h0).trans hxa
      · refine ⟨x, List.mem_cons_of_mem a hx, ?_⟩
        intro y hy
        rcases List.mem_cons.1 hy with rfl | h0
        · exact hax
        · exact hmax y h0

/-- `np_argmax` on a non-empty list is in range, attains the maximum, and
every earlier entry is strictly smaller. -/
theorem np_argmax_spec (l : List ℚ) (h : l ≠ []) :
    np_argmax l < l.length ∧
      (∀ j, j < l.length → l.getD j 0 ≤ l.getD (np_argmax l) 0) ∧
      (∀ j, j < np_argmax l → l.getD j 0 < l.getD (np_argmax l) 0) := by
  obtain ⟨x, hx, hmax⟩ := exists_list_max l h
  have hlt : np_argmax l < l.length := by
    apply List.findIdx_lt_length_of_exists
    refine ⟨x, hx, ?_⟩
    simp only [List.all_eq_true, decide_eq_true_eq]
    exact fun y hy => hmax y hy
  have hpred := @List.findIdx_getElem _ (fun x => l.all fun y => decide (y ≤ x)) l hlt
  have hmaxat : ∀ y ∈ l, y ≤ l.get ⟨np_argmax l, hlt⟩ := by
    have := hpred
    simp only [List.all_eq_true, decide_eq_true_eq] at this
    simpa using this
  refine ⟨hlt, ?_, ?_⟩
  · intro j hj
    rw [List.getD_eq_getElem l 0 hj, List.getD_eq_getElem l 0 hlt]
    exact hmaxat _ (List.getElem_mem hj)
  · intro j hj
    have hjlen : j < l.length := hj.trans hlt
    have hfail := @List.not_of_lt_findIdx _ (fun x => l.all fun y => decide (y ≤ x)) l j hj
    simp only [List.all_eq_false, decide_eq_true_eq, not_le] at hfail
    obtain ⟨y, hy, hylt⟩ := hfail
    rw [List.getD_eq_getElem l 0 hjlen, List.getD_eq_getElem l 0 hlt]
    calc l[j] < y := hylt
    _ ≤ l.get ⟨np_argmax l, hlt⟩ := hmaxat y hy

/-- `np_argmax` is the unique first maximum. -/
theorem np_argmax_eq (l : List ℚ) (i : Nat) (hi : i < l.length)
    (hmax : ∀ j, j < l.length → l.getD j 0 ≤ l.getD i 0)
    (hfirst : ∀ j, j < i → l.getD j 0 < l.getD i 0) : np_argmax l = i := by
  have hne : l ≠ [] := by
    intro h0
    rw [h0] at hi
    simp at hi
  obtain ⟨hlt, hmax2, hfirst2⟩ := np_argmax_spec l hne
  rcases lt_trichotomy (np_argmax l) i with h | h | h
  · exact absurd (hfirst _ h) (not_lt.2 (hmax2 i hi))
  · exact h
  · exact absurd (hfirst2 i h) (not_lt.2 (hmax _ hlt))

/-- `getD` through a map over `List.range`. -/
theorem getD_map_range (n j : Nat) (f : Nat → ℚ) (hj : j < n) :
    ((List.range n).map f).getD j 0 = f j := by
  rw [List.getD_eq_getElem _ _ (by simpa using hj)]
  simp

/-- The fold computing `listMin` is below its seed. -/
theorem foldl_min_le_init (l : List ℚ) : ∀ a : ℚ, l.foldl min a ≤ a := by
  induction l with
  | nil => intro a; simp
  | cons b t ih =>
    intro a
    rw [List.foldl_cons]
    exact (ih (min a b)).trans (min_le_left a b)

/-- The fold computing `listMin` is below every list element. -/
theorem foldl_min_le_mem (l : List ℚ) : ∀ a x : ℚ, x ∈ l → l.foldl min a ≤ x := by
  induction l with
  | nil => intro a x hx; cases hx
  | cons b t ih =>
    intro a x hx
    rw [List.foldl_cons]
    rcases List.mem_cons.1 hx with rfl | hx
    · exact (foldl_min_le_init t (min a x)).trans (min_le_right a x)
    · exact ih (min a b) x hx

/-- The fold computing `listMax` is above its seed. -/
theorem init_le_foldl_max (l : List ℚ) : ∀ a : ℚ, a ≤ l.foldl max a := by
  induction l with
  | nil => intro a; simp
  | cons b t ih =>
    intro a
    rw [List.foldl_cons]
    exact (le_max_left a b).trans (ih (max a b))

/-- The fold computing `listMax` is above every list element. -/
theorem mem_le_foldl_max (l : List ℚ) : ∀ a x : ℚ, x ∈ l → x ≤ l.foldl max a := by
  induction l with
  | nil => intro a x hx; cases hx
  | cons b t ih =>
    intro a x hx
    rw [List.foldl_cons]
    rcases List.mem_cons.1 hx with rfl | hx
    · exact (le_max_right a x).trans (init_le_foldl_max t (max a x))
    · exact ih (max a b) x hx

/-- `listMin` bounds every member from below. -/
theorem listMin_le (l : List ℚ) (x : ℚ) (hx : x ∈ l) : listMin l ≤ x := by
  cases l with
  | nil => cases hx
  | cons a t =>
    rcases List.mem_cons.1 hx with rfl | h0
    · exact foldl_min_le_init t x
    · exact foldl_min_le_mem t a x h0

/-- `listMax` bounds every member from above. -/
theorem le_listMax (l : List ℚ) (x : ℚ) (hx : x ∈ l) : x ≤ listMax l := by
  cases l with
  | nil => cases hx
  | cons a t =>
    rcases List.mem_cons.1 hx with rfl | h0
    · exact init_le_foldl_max t x
    · exact mem_le_foldl_max t a x h0

/-- The clamped floor used by `binIdx`, described by inequalities on the
floor. -/
theorem ite_floor_eq_iff (n i : Nat) (F : ℤ) (hn : 0 < n) (hin : i < n)
    (h0 : 0 ≤ F) (hFn : F ≤ (n:ℤ)) :
    ((if F = (n:ℤ) then n - 1 else F.toNat) = i) ↔
      ((i:ℤ) ≤ F ∧ (if i = n - 1 then True else F < (i:ℤ) + 1)) := by
  by_cases hFn' : F = (n:ℤ)
  · rw [if_pos hFn']
    by_cases hil : i = n - 1
    · rw [if_pos hil]
      subst hFn'
      subst hil
      constructor
      · intro h
        exact ⟨by omega, trivial⟩
      · intro h
        rfl
    · rw [if_neg hil]
      subst hFn'
      constructor
      · intro h
        exact absurd h.symm hil
      · intro h
        obtain ⟨h1, h2⟩ := h
        omega
  · rw [if_neg hFn']
    by_cases hil : i = n - 1
    · rw [if_pos hil]
      subst hil
      constructor
      · intro h
        exact ⟨by omega, trivial⟩
      · intro h
        obtain ⟨h1, -⟩ := h
        omega
    · rw [if_neg hil]
      constructor
      · intro h
        exact ⟨by omega, by omega⟩
      · intro h
        obtain ⟨h1, h2⟩ := h
        omega

/-- The last bin edge is the range maximum. -/
theorem binEdge_last (lo hi : ℚ) (n : Nat) (hn : 0 < n) :
    binEdge lo hi n n = hi := by
  unfold binEdge
  have : ((n:ℚ)) ≠ 0 := by exact_mod_cast hn.ne'
  field_simp

/-- For an in-range value, the arithmetic bin index of `np.histogram`
coincides with membership in the bins read as intervals: each bin contains
its low edge and excludes its high edge, except the last bin which is
closed. -/
theorem binIdx_eq_iff (lo hi x : ℚ) (n i : Nat) (hlohi : lo < hi) (hn : 0 < n)
    (hin : i < n) (hx1 : lo ≤ x) (hx2 : x ≤ hi) :
    binIdx lo hi n x = i ↔ specBinUpper lo hi n i x = true := by
  have hc : (0:ℚ) < hi - lo := by linarith
  have hnq : (0:ℚ) < (n:ℚ) := by exact_mod_cast hn
  have hf0 : (0:ℚ) ≤ (x - lo) * n / (hi - lo) :=
    div_nonneg (mul_nonneg (by linarith) hnq.le) hc.le
  have hfn : (x - lo) * n / (hi - lo) ≤ (n:ℚ) := by
    rw [div_le_iff₀ hc]
    nlinarith
  have hfl0 : 0 ≤ ⌊(x - lo) * n / (hi - lo)⌋ := Int.floor_nonneg.2 hf0
  have hfln : ⌊(x - lo) * n / (hi - lo)⌋ ≤ (n:ℤ) := by
    have h := Int.floor_mono hfn
    rwa [Int.floor_natCast] at h
  have hle : ∀ j : Nat, (binEdge lo hi n j ≤ x) ↔
      ((j:ℤ) ≤ ⌊(x - lo) * n / (hi - lo)⌋) := by
    intro j
    have h1 : binEdge lo hi n j ≤ x ↔ (j:ℚ) * (hi - lo) / n ≤ x - lo := by
      unfold binEdge
      constructor <;> intro h <;> linarith
    rw [h1, div_le_iff₀ hnq, Int.le_floor, le_div_iff₀ hc, Int.cast_natCast]
  have hlt2 : ∀ j : Nat, (x < binEdge lo hi n j) ↔
      (⌊(x - lo) * n / (hi - lo)⌋ < (j:ℤ)) := by
    intro j
    rw [lt_iff_not_le, hle j, not_le]
  simp only [binIdx]
  rw [ite_floor_eq_iff n i ⌊(x - lo) * n / (hi - lo)⌋ hn hin hfl0 hfln]
  unfold specBinUpper
  by_cases hil : i = n - 1
  · simp only [if_pos hil, decide_eq_true_eq, iff_true, ite_true]
    rw [binEdge_last lo hi n hn]
    constructor
    · rintro ⟨h1, -⟩
      exact ⟨(hle i).2 h1, hx2⟩
    · rintro ⟨h1, -⟩
      exact ⟨(hle i).1 h1, trivial⟩
  · simp only [if_neg hil, decide_eq_true_eq, ite_false]
    constructor
    · rintro ⟨h1, h2⟩
      refine ⟨(hle i).2 h1, ?_⟩
      rw [hlt2 (i + 1)]
      push_cast
      omega
    · rintro ⟨h1, h2⟩
      rw [hlt2 (i + 1)] at h2
      refine ⟨(hle i).1 h1, ?_⟩
      push_cast at h2
      omega

/-- With a non-degenerate price range, the histogram computed by
`calculate_poc` equals the histogram described by the spec with interval
bin membership (closed-left convention). -/
theorem npHist_eq_specHist (klines : List Kline) (n : Nat) (hn : 0 < n)
    (hlt : listMin (klines.map Kline.closePrice) <
      listMax (klines.map Kline.closePrice)) :
    (npHistogram (klines.map Kline.closePrice) (klines.map Kline.volume) n).1 =
      specHist klines n
        (specBinUpper (listMin (klines.map Kline.closePrice))
          (listMax (klines.map Kline.closePrice)) n) := by
  have hrange : histRange (klines.map Kline.closePrice) =
      (listMin (klines.map Kline.closePrice), listMax (klines.map Kline.closePrice)) := by
    unfold histRange
    rw [if_neg (ne_of_lt hlt)]
  simp only [npHistogram, specHist, hrange]
  apply List.map_congr_left
  intro i hi
  have hin : i < n := by simpa using hi
  rw [List.zip_map' Kline.closePrice Kline.volume klines, List.filter_map, List.map_map]
  congr 1
  apply congrArg
  apply List.filter_congr
  intro k hk
  have hmem : k.closePrice ∈ klines.map Kline.closePrice := List.mem_map_of_mem _ hk
  have h1 : listMin (klines.map Kline.closePrice) ≤ k.closePrice :=
    listMin_le _ _ hmem
  have h2 : k.closePrice ≤ listMax (klines.map Kline.closePrice) :=
    le_listMax _ _ hmem
  have hiff := binIdx_eq_iff (listMin (klines.map Kline.closePrice))
    (listMax (klines.map Kline.closePrice)) k.closePrice n i hlt hn hin h1 h2
  simp only [Function.comp]
  rcases hb : specBinUpper (listMin (klines.map Kline.closePrice))
      (listMax (klines.map Kline.closePrice)) n i k.closePrice with _ | _
  · simp only [decide_eq_false_iff_not]
    intro hcon
    rw [hiff] at hcon
    rw [hb] at hcon
    cases hcon
  · simp only [decide_eq_true_eq]
    rw [hiff, hb]

/-- A non-empty list of klines has `isEmpty = false`. -/
theorem isEmpty_false_of_ne (klines : List Kline) (hne : klines ≠ []) :
    klines.isEmpty = false := by
  cases klines with
  | nil => exact absurd rfl hne
  | cons a t => rfl

/-- With a non-degenerate price range, `calculate_poc` computes exactly the
spec-described histogram POC under the closed-left edge convention. -/
theorem poc_eq_specUpper (klines : List Kline) (n : Nat) (hne : klines ≠ [])
    (hn : 0 < n)
    (hlt : listMin (klines.map Kline.closePrice) <
      listMax (klines.map Kline.closePrice)) :
    calculate_poc klines n = specPocUpper klines n := by
  have hh := npHist_eq_specHist klines n hn hlt
  have hrange : histRange (klines.map Kline.closePrice) =
      (listMin (klines.map Kline.closePrice), listMax (klines.map Kline.closePrice)) := by
    unfold histRange
    rw [if_neg (ne_of_lt hlt)]
  have hedges : (npHistogram (klines.map Kline.closePrice)
      (klines.map Kline.volume) n).2 =
      fun j => binEdge (listMin (klines.map Kline.closePrice))
        (listMax (klines.map Kline.closePrice)) n j := by
    simp only [npHistogram, hrange]
  simp only [calculate_poc, isEmpty_false_of_ne klines hne, Bool.false_eq_true,
    if_false, specPocUpper]
  rw [hh, hedges]

/-- `pocHist` has one entry per bin. -/
theorem pocHist_length (klines : List Kline) (bins : Nat) :
    (pocHist klines bins).length = bins := by
  simp [pocHist, npHistogram]

/-- A single record with positive volume puts all weight in bin
`bins / 2` of the degenerate expanded range; at the default 500 bins the
POC midpoint is the close price plus 1/1000. -/
theorem poc_one_record (t : ℤ) (p v : ℚ) (hv : 0 < v) :
    calculate_poc [⟨t, p, v⟩] 500 = p + 1/1000 := by
  have hrange : histRange [p] = (p - 1/2, p + 1/2) := by
    simp [histRange, listMin, listMax]
  have hidx : binIdx (p - 1/2) (p + 1/2) 500 p = 250 := by
    simp only [binIdx]
    have e1 : (p - (p - 1/2)) * ((500:ℕ):ℚ) / (p + 1/2 - (p - 1/2)) = 250 := by
      push_cast
      ring_nf
    rw [e1]
    norm_num
    rfl
  have hhist : (npHistogram (([⟨t, p, v⟩] : List Kline).map Kline.closePrice)
      (([⟨t, p, v⟩] : List Kline).map Kline.volume) 500).1 =
      (List.range 500).map fun i => if 250 = i then v else 0 := by
    simp only [npHistogram, List.map_cons, List.map_nil, hrange]
    apply List.map_congr_left
    intro i _
    simp only [List.zip_cons_cons, List.zip_nil_right, List.filter_cons, List.filter_nil,
      hidx]
    by_cases h : (250:ℕ) = i
    · simp [h]
    · simp [h]
  have hlen : ((List.range 500).map fun i => if 250 = i then v else 0).length = 500 := by
    simp
  have harg : np_argmax ((List.range 500).map fun i => if 250 = i then v else 0) = 250 := by
    apply np_argmax_eq _ 250 (by simp)
    · intro j hj
      rw [hlen] at hj
      rw [getD_map_range 500 j _ hj, getD_map_range 500 250 _ (by norm_num)]
      by_cases h : (250:ℕ) = j
      · subst h
        simp
      · simp [h, hv.le]
    · intro j hj
      have hj' : j < 500 := by omega
      rw [getD_map_range 500 j _ hj', getD_map_range 500 250 _ (by norm_num)]
      have h : (250:ℕ) ≠ j := by omega
      simp [h, hv]
  have hedges : (npHistogram (([⟨t, p, v⟩] : List Kline).map Kline.closePrice)
      (([⟨t, p, v⟩] : List Kline).map Kline.volume) 500).2 =
      fun j => binEdge (p - 1/2) (p + 1/2) 500 j := by
    simp only [npHistogram, List.map_cons, List.map_nil, hrange]
  have hempty : ([⟨t, p, v⟩] : List Kline).isEmpty = false := rfl
  simp only [calculate_poc, hempty, Bool.false_eq_true, if_false]
  rw [hhist, harg, hedges]
  unfold binEdge
  push_cast
  ring_nf

/-- In a strictly increasing kline list, every record's open time is at
most the last record's. -/
theorem pairwise_le_getLast : ∀ (l : List Kline),
    l.Pairwise (fun a b => a.openTime < b.openTime) →
    ∀ x, l.getLast? = some x → ∀ b ∈ l, b.openTime ≤ x.openTime
  | [], _, x, hx => by simp at hx
  | [a], _, x, hx => by
    simp only [List.getLast?_singleton, Option.some.injEq] at hx
    subst hx
    intro b hb
    rcases List.mem_cons.1 hb with rfl | h0
    · exact le_rfl
    · cases h0
  | a :: c :: t, hp, x, hx => by
    have hx' : (c :: t).getLast? = some x := by
      rwa [List.getLast?_cons_cons] at hx
    have hp' := (List.pairwise_cons.1 hp).2
    have hrest := pairwise_le_getLast (c :: t) hp' x hx'
    intro b hb
    rcases List.mem_cons.1 hb with rfl | h0
    · have hxc : c.openTime ≤ x.openTime := hrest c (List.mem_cons_self c t)
      have hbc : b.openTime < c.openTime :=
        (List.pairwise_cons.1 hp).1 c (List.mem_cons_self c t)
      linarith
    · exact hrest b h0

/-- In a strictly increasing kline list, the head's open time is at most
every member's. -/
theorem pairwise_head_le (a : Kline) (t : List Kline)
    (hp : (a :: t).Pairwise fun x y => x.openTime < y.openTime) :
    ∀ b ∈ a :: t, a.openTime ≤ b.openTime := by
  intro b hb
  rcases List.mem_cons.1 hb with rfl | h0
  · exact le_rfl
  · exact le_of_lt ((List.pairwise_cons.1 hp).1 b h0)

/-- A successful fetch yields exactly the accumulator followed by the
concatenation of the non-empty pages received. -/
theorem fetchLoop_join (provider : ℤ → List Kline) (ms endT : ℤ) :
    ∀ (fuel : Nat) (cur : ℤ) (acc res : List Kline) (c : ℤ) (k : FetchExit),
      fetchLoop provider ms endT fuel cur acc = some (res, c, k) →
      ∃ ps, fetchPages provider ms endT fuel cur = some ps ∧
        res = acc ++ ps.flatten ∧ ∀ p ∈ ps, p ≠ []
  | 0, cur, acc, res, c, k => by
    intro h
    simp [fetchLoop] at h
  | fuel + 1, cur, acc, res, c, k => by
    intro h
    by_cases hc : cur < endT
    · cases hd : provider cur with
      | nil =>
        rw [fetchLoop, if_pos hc, hd] at h
        simp only [Option.some.injEq, Prod.mk.injEq] at h
        obtain ⟨rfl, -, -⟩ := h
        refine ⟨[], ?_, by simp, by simp⟩
        simp [fetchPages, hc, hd]
      | cons d rest =>
        rw [fetchLoop, if_pos hc, hd] at h
        obtain ⟨ps, hps, hres, hne⟩ := fetchLoop_join provider ms endT fuel
          (((d :: rest).getLast (List.cons_ne_nil d rest)).openTime + ms)
          (acc ++ (d :: rest)) res c k h
        refine ⟨(d :: rest) :: ps, ?_, ?_, ?_⟩
        · simp [fetchPages, hc, hd, hps]
        · rw [hres, List.flatten_cons, List.append_assoc]
        · intro p hp
          rcases List.mem_cons.1 hp with rfl | h0
          · exact List.cons_ne_nil d rest
          · exact hne p h0
    · rw [fetchLoop, if_neg hc] at h
      simp only [Option.some.injEq, Prod.mk.injEq] at h
      obtain ⟨rfl, -, -⟩ := h
      refine ⟨[], ?_, by simp, by simp⟩
      simp [fetchPages, hc]

/-- Under the page-provider contract (pages internally strictly increasing
and starting no earlier than the requested cursor) and a positive interval
step, the accumulated series stays strictly increasing. -/
theorem fetchLoop_sorted (provider : ℤ → List Kline) (ms endT : ℤ)
    (hms : 0 < ms)
    (hinc : ∀ c, (provider c).Pairwise fun a b => a.openTime < b.openTime)
    (hfirst : ∀ c k, (provider c).head? = some k → c ≤ k.openTime) :
    ∀ (fuel : Nat) (cur : ℤ) (acc res : List Kline) (c : ℤ) (x : FetchExit),
      acc.Pairwise (fun a b => a.openTime < b.openTime) →
      (∀ b ∈ acc, b.openTime < cur) →
      fetchLoop provider ms endT fuel cur acc = some (res, c, x) →
      res.Pairwise fun a b => a.openTime < b.openTime
  | 0, cur, acc, res, c, x => by
    intro _ _ h
    simp [fetchLoop] at h
  | fuel + 1, cur, acc, res, c, x => by
    intro hacc haccb h
    by_cases hc : cur < endT
    · cases hd : provider cur with
      | nil =>
        rw [fetchLoop, if_pos hc, hd] at h
        simp only [Option.some.injEq, Prod.mk.injEq] at h
        obtain ⟨rfl, -, -⟩ := h
        exact hacc
      | cons d rest =>
        rw [fetchLoop, if_pos hc, hd] at h
        have hpage : (d :: rest).Pairwise fun a b => a.openTime < b.openTime := by
          have := hinc cur
          rwa [hd] at this
        have hcurd : cur ≤ d.openTime := by
          apply hfirst cur d
          rw [hd]
          rfl
        have hlast := pairwise_le_getLast (d :: rest) hpage
          ((d :: rest).getLast (List.cons_ne_nil d rest))
          (List.getLast?_eq_getLast _ (List.cons_ne_nil d rest))
        have hp1 : (acc ++ (d :: rest)).Pairwise
            (fun a b => a.openTime < b.openTime) := by
          rw [List.pairwise_append]
          refine ⟨hacc, hpage, ?_⟩
          intro a ha b hb
          have h1 : a.openTime < cur := haccb a ha
          have h2 : d.openTime ≤ b.openTime := pairwise_head_le d rest hpage b hb
          linarith
        have hp2 : ∀ b ∈ acc ++ (d :: rest), b.openTime <
            ((d :: rest).getLast (List.cons_ne_nil d rest)).openTime + ms := by
          intro b hb
          rcases List.mem_append.1 hb with h0 | h0
          · have h1 : b.openTime < cur := haccb b h0
            have h2 : d.openTime ≤ ((d :: rest).getLast
                (List.cons_ne_nil d rest)).openTime :=
              hlast d (List.mem_cons_self d rest)
            linarith
          · have h1 := hlast b h0
            linarith
        exact fetchLoop_sorted provider ms endT hms hinc hfirst fuel
          (((d :: rest).getLast (List.cons_ne_nil d rest)).openTime + ms)
          (acc ++ (d :: rest)) res c x hp1 hp2 h
    · rw [fetchLoop, if_neg hc] at h
      simp only [Option.some.injEq, Prod.mk.injEq] at h
      obtain ⟨rfl, -, -⟩ := h
      exact hacc

/-- A successful fetch ended either on an empty page below the end time or
with the cursor at or past the end time. -/
theorem fetchLoop_exit (provider : ℤ → List Kline) (ms endT : ℤ) :
    ∀ (fuel : Nat) (cur : ℤ) (acc res : List Kline) (c : ℤ) (x : FetchExit),
      fetchLoop provider ms endT fuel cur acc = some (res, c, x) →
      (x = .emptyPage → provider c = [] ∧ c < endT) ∧
      (x = .rangeDone → endT ≤ c)
  | 0, cur, acc, res, c, x => by
    intro h
    simp [fetchLoop] at h
  | fuel + 1, cur, acc, res, c, x => by
    intro h
    by_cases hc : cur < endT
    · cases hd : provider cur with
      | nil =>
        rw [fetchLoop, if_pos hc, hd] at h
        simp only [Option.some.injEq, Prod.mk.injEq] at h
        obtain ⟨-, rfl, rfl⟩ := h
        exact ⟨fun _ => ⟨hd, hc⟩, fun hx => by cases hx⟩
      | cons d rest =>
        rw [fetchLoop, if_pos hc, hd] at h
        exact fetchLoop_exit provider ms endT fuel
          (((d :: rest).getLast (List.cons_ne_nil d rest)).openTime + ms)
          (acc ++ (d :: rest)) res c x h
    · rw [fetchLoop, if_neg hc] at h
      simp only [Option.some.injEq, Prod.mk.injEq] at h
      obtain ⟨-, rfl, rfl⟩ := h
      exact ⟨(fun hx => nomatch hx), fun _ => not_lt.1 hc⟩

/-- Under the provider contract and a positive step, enough fuel makes the
fetch loop return: the cursor advances by at least the step each
iteration. -/
theorem fetchLoop_total (provider : ℤ → List Kline) (ms endT : ℤ)
    (hms : 0 < ms)
    (hinc : ∀ c, (provider c).Pairwise fun a b => a.openTime < b.openTime)
    (hfirst : ∀ c k, (provider c).head? = some k → c ≤ k.openTime) :
    ∀ (n : Nat) (cur : ℤ), (endT - cur).toNat ≤ n →
      ∀ acc, ∃ out, fetchLoop provider ms endT (n + 1) cur acc = some out := by
  intro n
  induction n with
  | zero =>
    intro cur hcur acc
    by_cases hc : cur < endT
    · exact absurd hcur (by omega)
    · exact ⟨(acc, cur, .rangeDone), by rw [fetchLoop, if_neg hc]⟩
  | succ m ih =>
    intro cur hcur acc
    by_cases hc : cur < endT
    · cases hd : provider cur with
      | nil =>
        exact ⟨(acc, cur, .emptyPage), by rw [fetchLoop, if_pos hc, hd]⟩
      | cons d rest =>
        have hpage : (d :: rest).Pairwise fun a b => a.openTime < b.openTime := by
          have := hinc cur
          rwa [hd] at this
        have hcurd : cur ≤ d.openTime := by
          apply hfirst cur d
          rw [hd]
          rfl
        have hdl : d.openTime ≤ ((d :: rest).getLast
            (List.cons_ne_nil d rest)).openTime :=
          pairwise_le_getLast (d :: rest) hpage _
            (List.getLast?_eq_getLast _ (List.cons_ne_nil d rest)) d
            (List.mem_cons_self d rest)
        have hstep : cur + ms ≤
            ((d :: rest).getLast (List.cons_ne_nil d rest)).openTime + ms := by
          omega
        obtain ⟨out, hout⟩ := ih
          (((d :: rest).getLast (List.cons_ne_nil d rest)).openTime + ms)
          (by omega) (acc ++ (d :: rest))
        exact ⟨out, by rw [fetchLoop, if_pos hc, hd]; exact hout⟩
    · exact ⟨(acc, cur, .rangeDone), by rw [fetchLoop, if_neg hc]⟩

/-- At any cursor below the end time, the stalling provider makes the
fetch loop run forever: its page's record lies one step behind the cursor,
so the next cursor is the same. -/
theorem stall_loop_none : ∀ (fuel : Nat) (cur : ℤ), cur < 10 → ∀ (acc : List Kline),
    fetchLoop (fun c => [⟨c - 60000, 1, 1⟩]) 60000 10 fuel cur acc = none
  | 0, cur, hcur, acc => rfl
  | fuel + 1, cur, hcur, acc => by
    rw [fetchLoop, if_pos hcur]
    show fetchLoop (fun c => [⟨c - 60000, 1, 1⟩]) 60000 10 fuel
        ((([(⟨cur - 60000, 1, 1⟩ : Kline)]).getLast
          (List.cons_ne_nil _ _)).openTime + 60000)
        (acc ++ [⟨cur - 60000, 1, 1⟩]) = none
    rw [List.getLast_singleton]
    show fetchLoop (fun c => [⟨c - 60000, 1, 1⟩]) 60000 10 fuel
        (cur - 60000 + 60000) (acc ++ [⟨cur - 60000, 1, 1⟩]) = none
    have h2 : cur - 60000 + 60000 = cur := by ring
    rw [h2]
    exact stall_loop_none fuel cur hcur (acc ++ [⟨cur - 60000, 1, 1⟩])

end Lemmas

/-- C1: for every page provider whose pages have strictly increasing open
times and whose non-empty pages start no earlier than the requested
cursor, a terminating `get_binance_klines` run returns exactly the
concatenation, in request order, of the non-empty pages it received; the
result is strictly increasing in `openTime`, hence sorted ascending with
no duplicate open-time values.  The positive interval step is the
IntervalStep invariant of the spec. -/
theorem fetch_series_concat_sorted
    (provider : String → String → ℤ → ℤ → Nat → List Kline)
    (symbol interval : String) (start_time end_time : ℤ) (fuel : Nat)
    (interval_ms : ℤ) (res : List Kline)
    (hparse : parse_interval_to_ms interval = .ok interval_ms)
    (hpos : 0 < interval_ms)
    (hinc : ∀ s i c e l,
      (provider s i c e l).Pairwise fun a b => a.openTime < b.openTime)
    (hfirst : ∀ s i c e l k, (provider s i c e l).head? = some k → c ≤ k.openTime)
    (hres : get_binance_klines provider symbol interval start_time end_time fuel =
      some (.ok res)) :
    ∃ pages, fetchPages (fun c => provider symbol interval c end_time 1000)
        interval_ms end_time fuel start_time = some pages ∧
      res = pages.flatten ∧ (∀ p ∈ pages, p ≠ []) ∧
      (res.map Kline.openTime).Pairwise (· < ·) := by
  unfold get_binance_klines at hres
  rw [hparse] at hres
  dsimp only at hres
  cases hLoop : fetchLoop (fun c => provider symbol interval c end_time 1000)
      interval_ms end_time fuel start_time [] with
  | none =>
    rw [hLoop] at hres
    simp at hres
  | some out =>
    obtain ⟨kl, c, x⟩ := out
    rw [hLoop] at hres
    simp only [Option.some.injEq, Except.ok.injEq] at hres
    subst hres
    obtain ⟨ps, hps, hflat, hne⟩ := fetchLoop_join _ interval_ms end_time fuel
      start_time [] kl c x hLoop
    refine ⟨ps, hps, by simpa using hflat, hne, ?_⟩
    rw [List.pairwise_map]
    exact fetchLoop_sorted _ interval_ms end_time hpos
      (fun c2 => hinc symbol interval c2 end_time 1000)
      (fun c2 k hk => hfirst symbol interval c2 end_time 1000 k hk)
      fuel start_time [] kl c x (by simp) (by simp) hLoop

/-- Witness for C1: a two-iteration run through `get_binance_klines` with
a concrete well-behaved provider. -/
theorem fetch_series_concat_sorted_witness :
    parse_interval_to_ms "1m" = .ok 60000 ∧ (0:ℤ) < 60000 ∧
    ∃ pages, fetchPages (fun c => wProvider1 "BTCUSDT" "1m" c 2 1000)
        60000 2 3 0 = some pages ∧
      [Kline.mk 0 1 1] = pages.flatten ∧ (∀ p ∈ pages, p ≠ []) ∧
      (([Kline.mk 0 1 1]).map Kline.openTime).Pairwise (· < ·) := by
  refine ⟨rfl, by norm_num, ?_⟩
  apply fetch_series_concat_sorted wProvider1 "BTCUSDT" "1m" 0 2 3 60000
    [Kline.mk 0 1 1] rfl (by norm_num) ?_ ?_ ?_
  · intro s i c e l
    unfold wProvider1
    split
    · simp
    · simp
  · intro s i c e l k hk
    unfold wProvider1 at hk
    split at hk
    · simp only [List.head?_cons, Option.some.injEq] at hk
      subst hk
      exact le_rfl
    · simp at hk
  · rfl

/-- C2: the fetch loop has no forward-progress check and never raises a
data-integrity error; a page provider whose pages do not advance the
cursor makes `get_binance_klines` loop forever (here: for every fuel bound
the loop fails to finish) instead of raising `DataIntegrityError`. -/
theorem fetch_series_stall_no_error :
    ∀ fuel : Nat, get_binance_klines stallProvider "BTCUSDT" "1m" 0 10 fuel = none := by
  intro fuel
  have h := stall_loop_none fuel 0 (by norm_num) []
  have hP : (fun c => stallProvider "BTCUSDT" "1m" c 10 1000) =
      fun c => [(⟨c - 60000, 1, 1⟩ : Kline)] := rfl
  simp only [get_binance_klines,
    show parse_interval_to_ms "1m" = Except.ok 60000 from rfl, hP, h]

/-- C3: under the provider contract (pages strictly increasing, starting
no earlier than the cursor, eventually empty) and a positive step, the
fetch loop terminates with some finite fuel, and the loop ends exactly on
an empty page (below the end time) or with the cursor at or past the end
time. -/
theorem fetch_series_terminates (provider : ℤ → List Kline)
    (ms endT start : ℤ) (hms : 0 < ms)
    (hinc : ∀ c, (provider c).Pairwise fun a b => a.openTime < b.openTime)
    (hfirst : ∀ c k, (provider c).head? = some k → c ≤ k.openTime)
    (_hempty : ∃ T, ∀ c, T ≤ c → provider c = []) :
    ∃ fuel res c x, fetchLoop provider ms endT fuel start [] = some (res, c, x) ∧
      (x = .emptyPage → provider c = [] ∧ c < endT) ∧
      (x = .rangeDone → endT ≤ c) := by
  obtain ⟨out, hout⟩ := fetchLoop_total provider ms endT hms hinc hfirst
    (endT - start).toNat start le_rfl []
  obtain ⟨res, c, x⟩ := out
  exact ⟨(endT - start).toNat + 1, res, c, x, hout,
    fetchLoop_exit provider ms endT ((endT - start).toNat + 1) start [] res c x hout⟩

/-- Witness for C3: a concrete provider with data below cursor 5 and no
data from 5 on. -/
theorem fetch_series_terminates_witness :
    ∃ fuel res c x, fetchLoop wProvider3 1 10 fuel 0 [] = some (res, c, x) ∧
      (x = .emptyPage → wProvider3 c = [] ∧ c < 10) ∧
      (x = .rangeDone → 10 ≤ c) := by
  apply fetch_series_terminates wProvider3 1 10 0 (by norm_num) ?_ ?_ ?_
  · intro c
    unfold wProvider3
    split
    · simp
    · simp
  · intro c k hk
    unfold wProvider3 at hk
    split at hk
    · simp only [List.head?_cons, Option.some.injEq] at hk
      subst hk
      exact le_rfl
    · simp at hk
  · refine ⟨5, fun c hc => ?_⟩
    unfold wProvider3
    rw [if_neg (not_lt.2 hc)]

/-- C4 counterexample: with close prices 0, 1, 2 (volumes 1, 5, 1) and two
bins over [0, 2], the code counts the edge price 1 in the upper bin
(`calculate_poc` gives 3/2), while the claimed lower-edge boundary
convention puts it in the lower bin, whose midpoint is 1/2. -/
theorem calculate_poc_edge_convention_cex :
    calculate_poc [⟨0, 0, 1⟩, ⟨1, 1, 5⟩, ⟨2, 2, 1⟩] 2 = 3/2 ∧
      specPocLower [⟨0, 0, 1⟩, ⟨1, 1, 5⟩, ⟨2, 2, 1⟩] 2 = 1/2 ∧
      (3/2 : ℚ) ≠ 1/2 := by
  refine ⟨?_, ?_, by norm_num⟩
  · norm_num [calculate_poc, npHistogram, histRange, listMin, listMax, binIdx, binEdge,
      np_argmax, List.range_succ, List.findIdx_cons]
  · norm_num [specPocLower, specHist, specBinLower, listMin, listMax, binEdge,
      np_argmax, List.range_succ, List.findIdx_cons]

/-- C4 (amended): for a non-empty series with a non-degenerate price
range, `calculate_poc` partitions [min price, max price] into `binCount`
equal-width bins and accumulates each record's volume into its bin, with a
price on a bin edge falling into the higher-indexed bin having that edge
as its low edge (not the lower-indexed one) and the maximum price into the
last bin, returning the midpoint of the maximal bin: it equals the
spec-style histogram POC under that closed-left convention. -/
theorem calculate_poc_histogram_refines (klines : List Kline) (n : Nat)
    (hne : klines ≠ []) (hn : 0 < n)
    (hlt : listMin (klines.map Kline.closePrice) <
      listMax (klines.map Kline.closePrice)) :
    calculate_poc klines n = specPocUpper klines n :=
  poc_eq_specUpper klines n hne hn hlt

/-- Witness for C4's amended claim at a concrete series. -/
theorem calculate_poc_histogram_refines_witness :
    ([⟨0, 0, 1⟩, ⟨1, 1, 5⟩, ⟨2, 2, 1⟩] : List Kline) ≠ [] ∧ (0:ℕ) < 2 ∧
      listMin (([⟨0, 0, 1⟩, ⟨1, 1, 5⟩, ⟨2, 2, 1⟩] : List Kline).map Kline.closePrice) <
        listMax (([⟨0, 0, 1⟩, ⟨1, 1, 5⟩, ⟨2, 2, 1⟩] : List Kline).map Kline.closePrice) ∧
      calculate_poc [⟨0, 0, 1⟩, ⟨1, 1, 5⟩, ⟨2, 2, 1⟩] 2 =
        specPocUpper [⟨0, 0, 1⟩, ⟨1, 1, 5⟩, ⟨2, 2, 1⟩] 2 := by
  have h1 : ([⟨0, 0, 1⟩, ⟨1, 1, 5⟩, ⟨2, 2, 1⟩] : List Kline) ≠ [] := by simp
  have h3 : listMin (([⟨0, 0, 1⟩, ⟨1, 1, 5⟩, ⟨2, 2, 1⟩] : List Kline).map Kline.closePrice) <
      listMax (([⟨0, 0, 1⟩, ⟨1, 1, 5⟩, ⟨2, 2, 1⟩] : List Kline).map Kline.closePrice) := by
    norm_num [listMin, listMax, min_def, max_def]
  exact ⟨h1, by norm_num, h3,
    calculate_poc_histogram_refines [⟨0, 0, 1⟩, ⟨1, 1, 5⟩, ⟨2, 2, 1⟩] 2 h1 (by norm_num) h3⟩

/-- C5: the returned POC midpoint comes from the first (lowest-indexed)
bin attaining the maximal accumulated volume: the selected index is in
range, its volume is maximal, every earlier bin's volume is strictly
smaller, and the result is the midpoint of that bin's edges; ties are
therefore resolved deterministically to the lowest-indexed bin. -/
theorem calculate_poc_tie_lowest (klines : List Kline) (bins : Nat)
    (hne : klines ≠ []) (hbins : 0 < bins) :
    np_argmax (pocHist klines bins) < bins ∧
      (∀ j, j < bins → (pocHist klines bins).getD j 0 ≤
        (pocHist klines bins).getD (np_argmax (pocHist klines bins)) 0) ∧
      (∀ j, j < np_argmax (pocHist klines bins) →
        (pocHist klines bins).getD j 0 <
          (pocHist klines bins).getD (np_argmax (pocHist klines bins)) 0) ∧
      calculate_poc klines bins =
        (pocEdges klines bins (np_argmax (pocHist klines bins)) +
          pocEdges klines bins (np_argmax (pocHist klines bins) + 1)) / 2 := by
  have hlen := pocHist_length klines bins
  have hne2 : pocHist klines bins ≠ [] := by
    intro h0
    rw [h0] at hlen
    simp at hlen
    omega
  obtain ⟨h1, h2, h3⟩ := np_argmax_spec (pocHist klines bins) hne2
  rw [hlen] at h1
  refine ⟨h1, ?_, h3, ?_⟩
  · intro j hj
    exact h2 j (by rw [hlen]; exact hj)
  · simp only [calculate_poc, isEmpty_false_of_ne klines hne, Bool.false_eq_true,
      if_false, pocHist, pocEdges]

/-- Witness for C5 at a two-record series whose two bins tie with volume 1
each. -/
theorem calculate_poc_tie_lowest_witness :
    ([⟨0, 0, 1⟩, ⟨1, 2, 1⟩] : List Kline) ≠ [] ∧ (0:ℕ) < 2 ∧
    (np_argmax (pocHist [⟨0, 0, 1⟩, ⟨1, 2, 1⟩] 2) < 2 ∧
      (∀ j, j < 2 → (pocHist [⟨0, 0, 1⟩, ⟨1, 2, 1⟩] 2).getD j 0 ≤
        (pocHist [⟨0, 0, 1⟩, ⟨1, 2, 1⟩] 2).getD
          (np_argmax (pocHist [⟨0, 0, 1⟩, ⟨1, 2, 1⟩] 2)) 0) ∧
      (∀ j, j < np_argmax (pocHist [⟨0, 0, 1⟩, ⟨1, 2, 1⟩] 2) →
        (pocHist [⟨0, 0, 1⟩, ⟨1, 2, 1⟩] 2).getD j 0 <
          (pocHist [⟨0, 0, 1⟩, ⟨1, 2, 1⟩] 2).getD
            (np_argmax (pocHist [⟨0, 0, 1⟩, ⟨1, 2, 1⟩] 2)) 0) ∧
      calculate_poc [⟨0, 0, 1⟩, ⟨1, 2, 1⟩] 2 =
        (pocEdges [⟨0, 0, 1⟩, ⟨1, 2, 1⟩] 2 (np_argmax (pocHist [⟨0, 0, 1⟩, ⟨1, 2, 1⟩] 2)) +
          pocEdges [⟨0, 0, 1⟩, ⟨1, 2, 1⟩] 2
            (np_argmax (pocHist [⟨0, 0, 1⟩, ⟨1, 2, 1⟩] 2) + 1)) / 2) :=
  ⟨by simp, by norm_num,
    calculate_poc_tie_lowest [⟨0, 0, 1⟩, ⟨1, 2, 1⟩] 2 (by simp) (by norm_num)⟩

/-- C6: on the empty series `calculate_poc` returns the 0.0 sentinel
immediately, whatever the bin count, with no histogram computation and no
error. -/
theorem calculate_poc_empty_zero : ∀ bins : Nat, calculate_poc [] bins = 0 :=
  fun _ => rfl

/-- C7 (amended): for every NON-EMPTY token, a parseable integer prefix
with unit m/h/d yields the prefix times 60000 / 3600000 / 86400000 and any
other unit or an unparseable prefix raises `ValueError` (the
`InvalidIntervalError`); the claim's examples evaluate accordingly.  Only
the empty token escapes this dichotomy, raising `IndexError` instead. -/
theorem parse_interval_cases :
    (∀ (s : String) (v : ℤ) (u : Char), s.data.getLast? = some u →
        pyInt s.data.dropLast = some v →
        parse_interval_to_ms s =
          if u = 'm' then .ok (v * 60000)
          else if u = 'h' then .ok (v * 3600000)
          else if u = 'd' then .ok (v * 86400000)
          else .error .valueError) ∧
    (∀ s : String, s ≠ "" → pyInt s.data.dropLast = none →
        parse_interval_to_ms s = .error .valueError) ∧
    parse_interval_to_ms "1m" = .ok 60000 ∧
    parse_interval_to_ms "4h" = .ok 14400000 ∧
    parse_interval_to_ms "1d" = .ok 86400000 ∧
    parse_interval_to_ms "1x" = .error .valueError ∧
    parse_interval_to_ms "abc" = .error .valueError := by
  refine ⟨?_, ?_, rfl, rfl, rfl, rfl, rfl⟩
  · intro s v u hu hv
    unfold parse_interval_to_ms
    rw [hu]
    dsimp only
    rw [hv]
    dsimp only
    by_cases h1 : u = 'm'
    · rw [if_pos h1, if_pos h1]
      simp only [Except.ok.injEq]
      ring
    · rw [if_neg h1, if_neg h1]
      by_cases h2 : u = 'h'
      · rw [if_pos h2, if_pos h2]
        simp only [Except.ok.injEq]
        ring
      · rw [if_neg h2, if_neg h2]
        by_cases h3 : u = 'd'
        · rw [if_pos h3, if_pos h3]
          simp only [Except.ok.injEq]
          ring
        · rw [if_neg h3, if_neg h3]
  · intro s hs hv
    unfold parse_interval_to_ms
    cases hu : s.data.getLast? with
    | none =>
      exfalso
      apply hs
      apply String.ext
      rw [List.getLast?_eq_none_iff] at hu
      rw [hu]
    | some u =>
      dsimp only
      rw [hv]

/-- Witness for C7: a success case and a failure case through the amended
theorem. -/
theorem parse_interval_cases_witness :
    ("2h".data.getLast? = some 'h') ∧ (pyInt "2h".data.dropLast = some 2) ∧
      parse_interval_to_ms "2h" = .ok (2 * 3600000) ∧
      ("zz" : String) ≠ "" ∧ (pyInt "zz".data.dropLast = none) ∧
      parse_interval_to_ms "zz" = .error .valueError := by
  refine ⟨rfl, rfl, ?_, by decide, rfl, parse_interval_cases.2.1 "zz" (by decide) rfl⟩
  have h := parse_interval_cases.1 "2h" 2 'h' rfl rfl
  rw [if_neg (show ('h' : Char) ≠ 'm' by decide), if_pos rfl] at h
  exact h

/-- C7 counterexample: the empty token is in the claim's failure class
(its numeric prefix is not a valid integer) but raises `IndexError`, not
the claimed `InvalidIntervalError`/`ValueError`. -/
theorem parse_interval_empty_cex :
    parse_interval_to_ms "" = .error .indexError ∧
      PyError.indexError ≠ PyError.valueError :=
  ⟨rfl, by decide⟩

/-- C8 counterexample: the token "0m" parses successfully to 0
milliseconds, which is not strictly positive. -/
theorem parse_interval_zero_cex :
    ¬ ∀ n : ℤ, parse_interval_to_ms "0m" = .ok n → 0 < n := by
  intro h
  have h0 := h 0 rfl
  exact absurd h0 (by norm_num)

/-- C8 (amended): a successful parse multiplies the integer prefix by a
positive unit multiplier, so the result is strictly positive whenever the
parsed integer prefix is strictly positive (prefix 0 yields 0, a negative
prefix a negative duration). -/
theorem parse_interval_pos (s : String) (v n : ℤ)
    (hv : pyInt s.data.dropLast = some v) (hvpos : 0 < v)
    (hok : parse_interval_to_ms s = .ok n) : 0 < n := by
  unfold parse_interval_to_ms at hok
  cases hu : s.data.getLast? with
  | none =>
    rw [hu] at hok
    simp at hok
  | some u =>
    rw [hu] at hok
    dsimp only at hok
    rw [hv] at hok
    dsimp only at hok
    split_ifs at hok <;> simp only [Except.ok.injEq] at hok <;> omega

/-- Witness for C8's amended claim at "1m". -/
theorem parse_interval_pos_witness :
    pyInt "1m".data.dropLast = some 1 ∧ (0:ℤ) < 1 ∧
      parse_interval_to_ms "1m" = .ok 60000 ∧ (0:ℤ) < 60000 :=
  ⟨rfl, by norm_num, rfl, parse_interval_pos "1m" 1 60000 rfl (by norm_num) rfl⟩

/-- C9 counterexample: a single record of close price 100 and volume 1
yields POC 100 + 1/1000 (numpy expands the degenerate range to
[99.5, 100.5]), which differs from the close price by half a bin width —
far beyond floating-point tolerance. -/
theorem calculate_poc_single_cex :
    calculate_poc [⟨0, 100, 1⟩] 500 = 100 + 1/1000 ∧
      (100 + 1/1000 : ℚ) ≠ 100 :=
  ⟨poc_one_record 0 100 1 (by norm_num), by norm_num⟩

/-- C9 (amended): on a one-record series with positive volume,
`calculate_poc` performs no division by zero: the degenerate single-point
range is expanded to [p - 1/2, p + 1/2], all volume lands in bin 250 of
the default 500, and the returned midpoint is the close price plus 1/1000
(half a bin width), not the close price itself. -/
theorem calculate_poc_single_offset (t : ℤ) (p v : ℚ) (hv : 0 < v) :
    calculate_poc [⟨t, p, v⟩] 500 = p + 1/1000 :=
  poc_one_record t p v hv

/-- Witness for C9's amended claim. -/
theorem calculate_poc_single_offset_witness :
    (0:ℚ) < 1 ∧ calculate_poc [⟨7, 100, 1⟩] 500 = 100 + 1/1000 :=
  ⟨by norm_num, calculate_poc_single_offset 7 100 1 (by norm_num)⟩

/-- C10: the empty interval token makes `interval[-1]` raise `IndexError`,
which is outside the `ValueError` taxonomy and not among the exception
classes `main` catches (so it escapes the exit-code-1 handling). -/
theorem parse_interval_empty_index_error :
    parse_interval_to_ms "" = .error .indexError ∧
      main_handles .indexError = false ∧ main_handles .valueError = true :=
  ⟨rfl, rfl, rfl⟩
